import Mathlib

/-!
Verification of the Fleece DB core (couchbaselabs/fleece).

This file gives a shallow embedding, in Lean 4, of the parts of the
repository needed to settle the claims about it:

* `DB.cc` — snapshot load and recovery (`DB::loadCheckpoint`,
  `DB::validateTrailer`), the commit append (`DB::writeToFile`,
  `DB::commitChanges`), document accessors (`DB::get`, `DB::put`), and the
  checkpoint/data-slice API (`DB::isLegalCheckpoint`,
  `DB::dataUpToCheckpoint`, `DB::dataSinceCheckpoint`).
* `HeapDict.cc` — the mutable overlay over an immutable source dict with
  its merged iterator, `get`, `set` (via `_mutableValueToSetFor`),
  `remove` and `removeAll`.
* `NumConversion.cc` — `_parseUInt` and the signed/unsigned `ParseInteger`.

Keys and raw bytes are modelled as `List Nat` (byte strings); machine
integers are `Nat`/`Int` with explicit `% 2 ^ w` where an overflowing cast
occurs in the C++ code.  Sorted containers (`std::map`, the serialized
trie's iteration order) are modelled as association lists sorted by the
byte-lexicographic order `keyLt`, which mirrors `slice::operator<`
(memcmp of the common prefix, then shorter-is-smaller).
-/

/-- Byte strings: keys and file contents are sequences of byte values. -/
abbrev Key := List Nat

/-- Byte-lexicographic strict order on byte strings, mirroring
`slice::operator<`: compare bytes left to right; a strict prefix is
smaller than any extension of it. -/
def keyLt : Key → Key → Bool
  | [], [] => false
  | [], _ :: _ => true
  | _ :: _, [] => false
  | a :: as, b :: bs => a < b || (a = b && keyLt as bs)

theorem keyLt_irrefl (a : Key) : keyLt a a = false := by
  induction a with
  | nil => rfl
  | cons x xs ih => simp [keyLt, ih]

theorem keyLt_trans {a b c : Key} (hab : keyLt a b = true) (hbc : keyLt b c = true) :
    keyLt a c = true := by
  induction a generalizing b c with
  | nil =>
    cases b with
    | nil => simp [keyLt] at hab
    | cons y ys =>
      cases c with
      | nil => simp [keyLt] at hbc
      | cons z zs => simp [keyLt]
  | cons x xs ih =>
    cases b with
    | nil => simp [keyLt] at hab
    | cons y ys =>
      cases c with
      | nil => simp [keyLt] at hbc
      | cons z zs =>
        simp only [keyLt, Bool.or_eq_true, decide_eq_true_eq, Bool.and_eq_true] at hab hbc ⊢
        rcases hab with h1 | ⟨rfl, h1'⟩ <;> rcases hbc with h2 | ⟨h2e, h2'⟩
        · exact Or.inl (Nat.lt_trans h1 h2)
        · subst h2e; exact Or.inl h1
        · exact Or.inl h2
        · subst h2e; exact Or.inr ⟨rfl, ih h1' h2'⟩

theorem keyLt_trichotomy (a b : Key) :
    keyLt a b = true ∨ a = b ∨ keyLt b a = true := by
  induction a generalizing b with
  | nil =>
    cases b with
    | nil => simp [keyLt]
    | cons y ys => simp [keyLt]
  | cons x xs ih =>
    cases b with
    | nil => simp [keyLt]
    | cons y ys =>
      rcases Nat.lt_trichotomy x y with h | rfl | h
      · exact Or.inl (by simp [keyLt, h])
      · rcases ih ys with h' | rfl | h'
        · exact Or.inl (by simp [keyLt, h'])
        · exact Or.inr (Or.inl rfl)
        · exact Or.inr (Or.inr (by simp [keyLt, h']))
      · exact Or.inr (Or.inr (by simp [keyLt, h]))

theorem keyLt_asymm {a b : Key} (h : keyLt a b = true) : keyLt b a = false := by
  cases hba : keyLt b a with
  | false => rfl
  | true => cases keyLt_irrefl a ▸ keyLt_trans h hba

theorem keyLt_ne {a b : Key} (h : keyLt a b = true) : a ≠ b := by
  rintro rfl
  simp [keyLt_irrefl] at h

/-- Association-list lookup, modelling `std::map::find` /
`Dict::get` (the first entry whose key matches). -/
def alookup {A : Type _} : List (Key × A) → Key → Option A
  | [], _ => none
  | (k', a) :: rest, k => if k = k' then some a else alookup rest k

@[simp] theorem alookup_nil {A : Type _} (k : Key) : alookup ([] : List (Key × A)) k = none := rfl

@[simp] theorem alookup_cons {A : Type _} (k' : Key) (a : A) (rest : List (Key × A)) (k : Key) :
    alookup ((k', a) :: rest) k = if k = k' then some a else alookup rest k := rfl

theorem alookup_mem {A : Type _} {l : List (Key × A)} {k : Key} {a : A}
    (h : alookup l k = some a) : (k, a) ∈ l := by
  induction l with
  | nil => simp [alookup] at h
  | cons x rest ih =>
    obtain ⟨k', a'⟩ := x
    by_cases hk : k = k'
    · subst hk
      rw [alookup_cons, if_pos rfl] at h
      injection h with h
      subst h; exact List.mem_cons_self ..
    · simp only [alookup_cons, if_neg hk] at h
      exact List.mem_cons_of_mem _ (ih h)

theorem alookup_isSome_iff {A : Type _} {l : List (Key × A)} {k : Key} :
    (alookup l k).isSome = true ↔ k ∈ l.map Prod.fst := by
  induction l with
  | nil => simp [alookup]
  | cons x rest ih =>
    obtain ⟨k', a'⟩ := x
    by_cases hk : k = k' <;> simp [alookup, hk, ih]

theorem alookup_eq_none_of_not_mem {A : Type _} {l : List (Key × A)} {k : Key}
    (h : k ∉ l.map Prod.fst) : alookup l k = none := by
  cases ha : alookup l k with
  | none => rfl
  | some a =>
    exact absurd (List.mem_map_of_mem Prod.fst (alookup_mem ha)) h

/-- Insert-or-assign into a `keyLt`-sorted association list, modelling
`std::map::operator[]` followed by an assignment to the mapped value. -/
def mapInsert {A : Type _} : List (Key × A) → Key → A → List (Key × A)
  | [], k, a => [(k, a)]
  | (k', a') :: rest, k, a =>
    if keyLt k k' then (k, a) :: (k', a') :: rest
    else if k = k' then (k, a) :: rest
    else (k', a') :: mapInsert rest k a

theorem alookup_mapInsert {A : Type _} (l : List (Key × A)) (k : Key) (a : A) (k' : Key) :
    alookup (mapInsert l k a) k' = if k' = k then some a else alookup l k' := by
  induction l with
  | nil =>
    by_cases h : k' = k <;> simp [mapInsert, alookup, h]
  | cons x rest ih =>
    obtain ⟨kx, ax⟩ := x
    simp only [mapInsert]
    by_cases h1 : keyLt k kx
    · simp only [if_pos h1]
      by_cases h : k' = k <;> simp [alookup, h]
    · simp only [if_neg h1]
      by_cases h2 : k = kx
      · subst h2
        by_cases h : k' = k <;> simp [alookup, h]
      · simp only [if_neg h2]
        by_cases h : k' = k
        · subst h
          simp [alookup, h2, ih]
        · by_cases hx : k' = kx
          · subst hx
            simp [alookup, ih, h]
          · simp [alookup, hx, ih, h]

/-- Removal from an association list, modelling `std::map::erase(key)`
(at most one entry has any given key in a `std::map`). -/
def eraseKey {A : Type _} : List (Key × A) → Key → List (Key × A)
  | [], _ => []
  | (k', a') :: rest, k => if k = k' then rest else (k', a') :: eraseKey rest k

/-! ## DB engine: file format records and snapshot load (`DB.cc`) -/

/-- The decoded form of the 24-byte `FileHeader` at offset 0 of a DB file
(14 bytes of magic text, a 16-bit size, a 64-bit magic). -/
structure FileHeaderRec where
  magicText : List Nat
  size : Nat
  magic2 : Nat
deriving DecidableEq

/-- The byte values of `FileHeader::kMagicText`: `"FleeceDB\n"` followed by
five NUL bytes (14 bytes compared by `memcmp`). -/
def kHeaderMagicText : List Nat := [70, 108, 101, 101, 99, 101, 68, 66, 10, 0, 0, 0, 0, 0]

/-- `FileHeader::kMagic2`. -/
def kHeaderMagic2 : Nat := 0xBAD724227CA1955F

/-- The decoded form of the 32-byte `FileTrailer` that ends each snapshot. -/
structure FileTrailer where
  magic1 : Nat
  treeOffset : Nat
  padding : Nat
  prevTrailerPos : Nat
  magic2 : Nat
deriving DecidableEq

/-- `FileTrailer::kMagic1`. -/
def kTrailerMagic1 : Nat := 0x332FFAB5BC644D0C

/-- `FileTrailer::kMagic2`. -/
def kTrailerMagic2 : Nat := 0x84A732B5C0E6948B

/-- A mapped DB file, abstracted to the records its bytes decode to:
the header at offset 0 and, for every candidate size `s`, the
`FileTrailer` record that the 32 bytes `[s − 32, s)` decode to. -/
structure DBFile where
  header : FileHeaderRec
  trailerAt : Nat → FileTrailer

/-- The state `DB::validateTrailer` establishes on success: the loaded
data range is `[0, dataSize)`, `_prevCheckpoint` is recorded, and the
persistent trie is reconstructed from the byte slice `[0, treePos)`
(`HashTree::fromData` reads the tree whose serialized bytes end at
`treePos`). -/
structure LoadState where
  dataSize : Nat
  prevCheckpoint : Nat
  treePos : Nat
deriving DecidableEq

/-- Result of a snapshot load: either a loaded state or the
`InvalidData` exception. -/
inductive LoadResult where
  | ok (st : LoadState)
  | invalidData
deriving DecidableEq

/-- `DB::validateTrailer(size)`: reject if `size` is below or not a
multiple of the page size; decode the trailer ending at `size`; check both
magics; check `prevTrailerPos ≤ size − pageSize` and page alignment of
`prevTrailerPos`; compute `treePos = size − 32 − treeOffset` as a signed
quantity and check it is nonnegative, at least `prevTrailerPos`, and even.
On success record the data range, previous checkpoint and tree position. -/
def validateTrailer (f : DBFile) (pageSize : Nat) (size : Nat) : Option LoadState :=
  if size < pageSize ∨ size % pageSize ≠ 0 then none
  else
    let t := f.trailerAt size
    if t.magic1 ≠ kTrailerMagic1 ∨ t.magic2 ≠ kTrailerMagic2 then none
    else if t.prevTrailerPos > size - pageSize ∨ t.prevTrailerPos % pageSize ≠ 0 then none
    else
      let treePos : Int := (size : Int) - 32 - (t.treeOffset : Int)
      if treePos < 0 ∨ treePos < (t.prevTrailerPos : Int) ∨ treePos % 2 ≠ 0 then none
      else some ⟨size, t.prevTrailerPos, treePos.toNat⟩

/-- The backward-scan loop of `DB::loadCheckpoint`: try the trailer at
`size`; on failure raise `InvalidData` when `size ≤ pageSize` or
`pageSize == 1`, otherwise retry at `size − pageSize`.  `DB`'s
constructor asserts `pageSize > 0`; the `pageSize = 0` guard closes the
case that assertion excludes. -/
def trailerScan (f : DBFile) (pageSize : Nat) (size : Nat) : LoadResult :=
  match validateTrailer f pageSize size with
  | some st => LoadResult.ok st
  | none =>
    if size ≤ pageSize ∨ pageSize = 1 then LoadResult.invalidData
    else if pageSize = 0 then LoadResult.invalidData
    else trailerScan f pageSize (size - pageSize)
termination_by size
decreasing_by
  rename_i h1 h2
  rw [not_or] at h1
  omega

/-- `DB::validateHeader()`: the 14 magic-text bytes, `magic2`, and a
header size below `max(pageSize, 4096)`. -/
def validateHeader (f : DBFile) (pageSize : Nat) : Bool :=
  f.header.magicText = kHeaderMagicText
    && f.header.magic2 = kHeaderMagic2
    && f.header.size < max pageSize 4096

/-- `DB::loadCheckpoint(checkpoint)`: an empty file is an empty DB; a
nonempty one must be at least a page and carry a valid header; the size is
rounded down to a page multiple and the trailer scan starts there.  (The
`_damaged` flag and the warnings are diagnostics only and are not
modelled.) -/
def loadCheckpoint (f : DBFile) (pageSize : Nat) (checkpoint : Nat) : LoadResult :=
  if checkpoint = 0 then LoadResult.ok ⟨0, 0, 0⟩
  else if checkpoint < pageSize then LoadResult.invalidData
  else if ¬ validateHeader f pageSize then LoadResult.invalidData
  else trailerScan f pageSize (checkpoint - checkpoint % pageSize)

/-! ## DB engine: commit append (`DB::writeToFile`, `DB::commitChanges`) -/

/-- What `DB::writeToFile` produces, beyond the stream of bytes it sends
through the encoder: the returned final size, the trailer record it
writes at `finalPos − 32`, and the file offset at which the encoder began
emitting the serialized trie. -/
structure WriteResult where
  finalPos : Nat
  trailer : FileTrailer
  trieStart : Nat
deriving DecidableEq

/-- `DB::writeToFile(f, delta, flush)`.  `dataSize` is `_data.size` (the
currently loaded snapshot size `B`); `ftellPos` is the position `ftello`
reports for a non-delta write; `encBytes` is `enc.bytesWritten()`, the
number of bytes the encoder emits for the trie (the encoder itself is an
external collaborator).  The header is written when not a delta or when
the file is empty; the file is extended to a page boundary leaving 32
bytes for the trailer; the trailer's `treeOffset` is the 32-bit cast of
`finalPos − 32 − filePos` with `filePos` the position after the encoder
finished, and `prevTrailerPos` is `_data.size` for a delta and 0
otherwise.  Flushing is I/O and is not modelled. -/
def writeToFile (dataSize : Nat) (delta : Bool) (ftellPos : Nat) (encBytes : Nat)
    (pageSize : Nat) : WriteResult :=
  let filePos0 := if delta then dataSize else ftellPos
  let filePos1 := if ¬ delta ∨ dataSize = 0 then filePos0 + 24 else filePos0
  let trieStart := filePos1
  let filePos2 := filePos1 + encBytes
  let finalPos0 := filePos2 + 32
  let finalPos :=
    if finalPos0 % pageSize ≠ 0 then finalPos0 + (pageSize - finalPos0 % pageSize)
    else finalPos0
  { finalPos := finalPos
    trailer :=
      { magic1 := kTrailerMagic1
        treeOffset := (finalPos - 32 - filePos2) % 2 ^ 32
        padding := 0
        prevTrailerPos := if delta then dataSize else 0
        magic2 := kTrailerMagic2 }
    trieStart := trieStart }

/-- `DB::commitChanges()`: a no-op unless the tree is changed; otherwise a
delta append via `writeToFile(_file->fileHandle(), true, true)` followed
by a resize and reload at the returned size.  The result is the new file
size when an append happened. -/
def commitChanges (dataSize : Nat) (changed : Bool) (encBytes : Nat) (pageSize : Nat) :
    Option Nat :=
  if ¬ changed then none
  else some (writeToFile dataSize true dataSize encBytes pageSize).finalPos

/-! ## DB engine: checkpoint and data-slice API -/

/-- `DB::isLegalCheckpoint(checkpoint)`. -/
def isLegalCheckpoint (data : List Nat) (pageSize : Nat) (checkpoint : Nat) : Bool :=
  checkpoint ≤ data.length && checkpoint % pageSize = 0

/-- `DB::dataUpToCheckpoint(checkpoint)`: `nullslice` (modelled as `none`)
on an illegal checkpoint, otherwise `_data.upTo(checkpoint)`. -/
def dataUpToCheckpoint (data : List Nat) (pageSize : Nat) (checkpoint : Nat) :
    Option (List Nat) :=
  if ¬ isLegalCheckpoint data pageSize checkpoint then none
  else some (data.take checkpoint)

/-- `DB::dataSinceCheckpoint(checkpoint)`: `nullslice` on an illegal
checkpoint, otherwise `_data.from(checkpoint)`. -/
def dataSinceCheckpoint (data : List Nat) (pageSize : Nat) (checkpoint : Nat) :
    Option (List Nat) :=
  if ¬ isLegalCheckpoint data pageSize checkpoint then none
  else some (data.drop checkpoint)

/-! ## DB engine: document accessors (`DB::get`, `DB::put`) -/

/-- Modelled from the spec: `MutableHashTree` (its code, `HashTree.cc` /
`MutableHashTree`, is not under `src/`) is a mutable key→value mapping:
"reads through the overlay (if any) into the persistent trie".  It is
modelled as an association list from byte-string keys to values; `DB.cc`
only consumes `get`, `insert(key, callback)` and `remove`. -/
def treeGet {V : Type _} (t : List (Key × V)) (k : Key) : Option V := alookup t k

/-- Modelled from the spec: `MutableHashTree::insert(key, callback)` — the
callback "receives the current document (possibly absent) and returns the
replacement (returning absent aborts the put with false)".  Returns
whether a value was stored, together with the updated tree. -/
def treeInsert {V : Type _} (t : List (Key × V)) (k : Key)
    (callback : Option V → Option V) : Bool × List (Key × V) :=
  match callback (treeGet t k) with
  | none => (false, t)
  | some v => (true, mapInsert t k v)

/-- Modelled from the spec: `MutableHashTree::remove(key)` — "returns
whether a key existed", removing it. -/
def treeRemove {V : Type _} (t : List (Key × V)) (k : Key) : Bool × List (Key × V) :=
  ((treeGet t k).isSome, eraseKey t k)

/-- `DB::PutMode`. -/
inductive PutMode where
  | Insert
  | Update
  | Upsert
deriving DecidableEq

/-- `DB::put(key, mode, const Dict *value)`: for a non-null value,
`_tree.insert` with a callback that aborts when mode is `Insert` and the
key exists or mode is `Update` and it does not; for a null value,
`_tree.remove` unless the mode is `Insert`, which fails outright. -/
def DBput {V : Type _} (t : List (Key × V)) (k : Key) (mode : PutMode) (value : Option V) :
    Bool × List (Key × V) :=
  match value with
  | some v =>
    treeInsert t k (fun curVal =>
      if (mode = PutMode.Insert ∧ curVal.isSome) ∨ (mode = PutMode.Update ∧ curVal.isNone)
      then none
      else some v)
  | none =>
    if mode ≠ PutMode.Insert then treeRemove t k
    else (false, t)

/-- A document value as `DB::get` distinguishes them: either a dict (with
some payload) or a non-dict value.  Modelled from the spec: `asDict` is
external value inspection — it yields the dict when the value is one and
null otherwise. -/
inductive FValue (D : Type _) where
  | dict (d : D)
  | nonDict (payload : Nat)
deriving DecidableEq

/-- Modelled from the spec: `Value::asDict()`. -/
def FValue.asDict {D : Type _} : FValue D → Option D
  | .dict d => some d
  | .nonDict _ => none

/-- `DB::get(key)`: `value = _tree.get(key); return value ? value->asDict() : nullptr`. -/
def DBget {D : Type _} (t : List (Key × FValue D)) (k : Key) : Option D :=
  match treeGet t k with
  | some v => v.asDict
  | none => none

/-! ## Mutable overlay (`HeapDict.cc`)

A `ValueSlot` is modelled as `Option V`: an occupied slot holds a value,
an empty (default-constructed) slot is `none`.  Modelled from the spec:
`ValueSlot` itself (`ValueSlot.hh` is not under `src/`) is an "optional
holder for a value pointer"; an "empty slot over a source key denotes a
tombstone", `ValueSlot::asValue()` of an empty slot is null, and
`operator bool` tests occupancy. -/

/-- The `HeapDict` state: the optional immutable source dict, the sorted
overlay map of `ValueSlot`s, the backing store of owned key bytes, the
`_count` field, and the `isChanged` flag.  (`_iterable`, a cache for
`kvArray`, is diagnostic for the claims and not modelled.) -/
structure HeapDict (V : Type _) where
  source : Option (List (Key × V))
  map : List (Key × Option V)
  backingSlices : List Key
  count : Nat
  changed : Bool
deriving DecidableEq

/-- `_source ? _source->get(key) : nullptr`. -/
def sourceGet {V : Type _} (d : HeapDict V) (k : Key) : Option V :=
  match d.source with
  | some s => alookup s k
  | none => none

/-- The `HeapDict(const Dict*)` constructor: empty overlay,
`_count = d ? d->count() : 0`, unchanged. -/
def HeapDict.fromSource {V : Type _} (src : Option (List (Key × V))) : HeapDict V :=
  { source := src
    map := []
    backingSlices := []
    count := match src with | some s => s.length | none => 0
    changed := false }

/-- `HeapDict::_makeValueFor(key)`: return the existing map entry, or
allocate the key into `_backingSlices` and create a new empty slot. -/
def makeValueFor {V : Type _} (d : HeapDict V) (k : Key) : HeapDict V :=
  if (alookup d.map k).isSome then d
  else { d with map := mapInsert d.map k none, backingSlices := d.backingSlices ++ [k] }

/-- `HeapDict::get(key)`: a map entry wins (an empty slot yields null via
`ValueSlot::asValue`), otherwise the source is consulted. -/
def HeapDict.get {V : Type _} (d : HeapDict V) (k : Key) : Option V :=
  match alookup d.map k with
  | some slot => slot
  | none => sourceGet d k

/-- `HeapDict::set(key, value)` =
`_mutableValueToSetFor(key).set(value)`: `_makeValueFor` the slot,
increment `_count` iff the slot is empty and the source lacks the key,
mark changed, then store the value into the slot. -/
def HeapDict.set {V : Type _} (d : HeapDict V) (k : Key) (v : V) : HeapDict V :=
  let d1 := makeValueFor d k
  let slotEmpty : Bool := match alookup d1.map k with
    | some none => true
    | _ => false
  let bump := slotEmpty && (sourceGet d k).isNone
  { d1 with
    map := mapInsert d1.map k (some v)
    count := d1.count + (if bump then 1 else 0)
    changed := true }

/-- `HeapDict::remove(key)`: when the source has the key, fetch the slot
via `_makeValueFor` — creating an empty one if absent — and return early
("already removed") if the slot is empty, else make it a tombstone;
otherwise erase the overlay entry, returning early if nothing was erased.
On the non-early paths decrement `_count` and mark changed. -/
def HeapDict.remove {V : Type _} (d : HeapDict V) (k : Key) : HeapDict V :=
  if (sourceGet d k).isSome then
    let d1 := makeValueFor d k
    match alookup d1.map k with
    | some none => d1
    | _ => { d1 with map := mapInsert d1.map k none, count := d1.count - 1, changed := true }
  else
    if (alookup d.map k).isSome then
      { d with map := eraseKey d.map k, count := d.count - 1, changed := true }
    else d

/-- `HeapDict::removeAll()`: a no-op when `_count == 0`; otherwise clear
the map and backing slices, `_makeValueFor` every source key (overriding
the source with empty slots), zero the count and mark changed. -/
def HeapDict.removeAll {V : Type _} (d : HeapDict V) : HeapDict V :=
  if d.count = 0 then d
  else
    let cleared : HeapDict V := { d with map := [], backingSlices := [] }
    let d2 :=
      match d.source with
      | some s => s.foldl (fun dd (e : Key × V) => makeValueFor dd e.1) cleared
      | none => cleared
    { d2 with count := 0, changed := true }

/-- The count the spec's invariant prescribes: source keys whose overlay
slot is not a tombstone, plus overlay-only keys holding an occupied
slot. -/
def overlayCount {V : Type _} (d : HeapDict V) : Nat :=
  (match d.source with
   | some s =>
     (s.filter (fun e =>
       match alookup d.map e.1 with
       | some none => false
       | _ => true)).length
   | none => 0)
  + (d.map.filter (fun e => e.2.isSome && (sourceGet d e.1).isNone)).length

/-- The `count` invariant of the spec (§3 #6). -/
def countInvariant {V : Type _} (d : HeapDict V) : Prop :=
  d.count = overlayCount d

/-! ### Merged iterator (`HeapDict::iterator::operator++`)

The iterator merges the sorted source stream with the sorted overlay map:
a strictly smaller source key is emitted as is; otherwise the overlay
entry is emitted when occupied (and the source is also advanced when the
keys are equal); a tombstone emits nothing and the loop continues.  The
source's single else-branch is unfolded here into the `sk = nk` and
`keyLt nk sk` cases, whose emitted pair and slot handling are
identical. -/
def mergedEntries {V : Type _} : List (Key × V) → List (Key × Option V) → List (Key × V)
  | [], [] => []
  | (sk, sv) :: src, [] => (sk, sv) :: mergedEntries src []
  | [], (nk, slot) :: ovl =>
    match slot with
    | some v => (nk, v) :: mergedEntries ([] : List (Key × V)) ovl
    | none => mergedEntries ([] : List (Key × V)) ovl
  | (sk, sv) :: src, (nk, slot) :: ovl =>
    if keyLt sk nk then
      (sk, sv) :: mergedEntries src ((nk, slot) :: ovl)
    else if sk = nk then
      match slot with
      | some v => (nk, v) :: mergedEntries src ovl
      | none => mergedEntries src ovl
    else
      match slot with
      | some v => (nk, v) :: mergedEntries ((sk, sv) :: src) ovl
      | none => mergedEntries ((sk, sv) :: src) ovl
termination_by src ovl => src.length + ovl.length
decreasing_by all_goals simp_arith

/-- Entry lists sorted strictly ascending by `keyLt` on the keys: the
iteration order of a `Dict` source and of the `std::map` overlay. -/
def SortedK {A : Type _} (xs : List (Key × A)) : Prop :=
  xs.Pairwise (fun p q => keyLt p.1 q.1 = true)

/-! ## Numeric parsing (`NumConversion.cc`)

C strings are modelled as NUL-free lists of byte values; reaching the end
of the list is reaching the terminating `'\0'`.  `isdigit`/`isspace` are
the C-locale classifiers. -/

/-- `UINT64_MAX`. -/
def UINT64MAX : Nat := 2 ^ 64 - 1

/-- `INT64_MAX`. -/
def INT64MAX : Nat := 2 ^ 63 - 1

/-- C-locale `isdigit` on a byte. -/
def isDigitByte (b : Nat) : Bool := 48 ≤ b && b ≤ 57

/-- C-locale `isspace` on a byte: space or `'\t'`…`'\r'`. -/
def isSpaceByte (b : Nat) : Bool := b = 32 || (9 ≤ b && b ≤ 13)

/-- The digit-accumulation loop of `_parseUInt`: consume leading digits
into `n`, guarding each step against `uint64_t` overflow exactly as the
source does (`n > UINT64_MAX / 10` before the multiply, then
`n > UINT64_MAX - digit` before the add).  Returns the accumulated value
and the unconsumed tail, or `none` on overflow. -/
def parseDigits : List Nat → Nat → Option (Nat × List Nat)
  | [], n => some (n, [])
  | b :: rest, n =>
    if isDigitByte b then
      let digit := b - 48
      if n > UINT64MAX / 10 then none
      else if n * 10 > UINT64MAX - digit then none
      else parseDigits rest (n * 10 + digit)
    else some (n, b :: rest)

/-- `static bool _parseUInt(str, result, allowTrailing)`: requires a
leading digit, accumulates digits with overflow checks, and unless
`allowTrailing` holds requires only whitespace after the last digit. -/
def parseUIntSub (s : List Nat) (allowTrailing : Bool) : Option Nat :=
  match s with
  | [] => none
  | b :: _ =>
    if ¬ isDigitByte b then none
    else
      match parseDigits s 0 with
      | none => none
      | some (n, rest) =>
        if allowTrailing then some n
        else if rest.dropWhile isSpaceByte = [] then some n
        else none

/-- Unsigned `ParseInteger`: skip whitespace, allow a `'+'`, then
`_parseUInt`. -/
def parseIntegerU (s : List Nat) (allowTrailing : Bool) : Option Nat :=
  let s1 := s.dropWhile isSpaceByte
  let s2 := match s1 with
    | b :: r => if b = 43 then r else b :: r
    | [] => []
  parseUIntSub s2 allowTrailing

/-- Signed `ParseInteger`: skip whitespace, note a `'-'` or `'+'`, parse
the magnitude with `_parseUInt`, then range-check: a negative magnitude up
to `INT64_MAX` negates directly, exactly `INT64_MAX + 1` is special-cased
to `INT64_MIN`, anything larger fails; a non-negative magnitude above
`INT64_MAX` fails. -/
def parseIntegerS (s : List Nat) (allowTrailing : Bool) : Option Int :=
  let s1 := s.dropWhile isSpaceByte
  let negative : Bool := match s1 with
    | b :: _ => b == 45
    | [] => false
  let s2 := match s1 with
    | b :: r => if b = 45 ∨ b = 43 then r else b :: r
    | [] => []
  match parseUIntSub s2 allowTrailing with
  | none => none
  | some u =>
    if negative then
      if u ≤ INT64MAX then some (-(u : Int))
      else if u = INT64MAX + 1 then some (-(2 ^ 63 : Int))
      else none
    else
      if u > INT64MAX then none
      else some (u : Int)

/-- The unbounded numeric value of a digit string. -/
def digitsVal (ds : List Nat) : Nat := ds.foldl (fun n b => n * 10 + (b - 48)) 0

/-! ## Helper lemmas -/

/-- Between two multiples of the page size there is at least a full page. -/
theorem page_gap {ps B n : Nat} (hps : 0 < ps) (hB : B % ps = 0) (hn : n % ps = 0)
    (hlt : B < n) : B + ps ≤ n := by
  have hdvd : ps ∣ n - B := Nat.dvd_sub' (Nat.dvd_of_mod_eq_zero hn) (Nat.dvd_of_mod_eq_zero hB)
  have := Nat.le_of_dvd (by omega) hdvd
  omega

/-- The spec-side description of `DB::put` from the claim: `Insert` fails
on an existing key, `Update` fails on a missing one, otherwise the value
is installed with success; a null value removes (returning existence)
except under `Insert`, which fails. -/
def DBputSpec {V : Type _} (t : List (Key × V)) (k : Key) (mode : PutMode)
    (value : Option V) : Bool × List (Key × V) :=
  match value with
  | some v =>
    match mode with
    | PutMode.Insert => if (treeGet t k).isSome then (false, t) else (true, mapInsert t k v)
    | PutMode.Update => if (treeGet t k).isNone then (false, t) else (true, mapInsert t k v)
    | PutMode.Upsert => (true, mapInsert t k v)
  | none =>
    match mode with
    | PutMode.Insert => (false, t)
    | _ => ((treeGet t k).isSome, eraseKey t k)

/-- C2: `DB::put` refines the claimed behavior: with a non-absent value,
`Insert` returns false when the key already exists and `Update` returns
false when it does not, otherwise the value is installed and `put` returns
true; with an absent value, any mode but `Insert` removes the key and
returns whether it existed, while `Insert` fails. -/
theorem DB_put_semantics {V : Type _} (t : List (Key × V)) (k : Key) (mode : PutMode)
    (value : Option V) : DBput t k mode value = DBputSpec t k mode value := by
  cases value with
  | some v =>
    cases mode <;>
      cases h : treeGet t k <;>
        simp [DBput, DBputSpec, treeInsert, h]
  | none =>
    cases mode <;> simp [DBput, DBputSpec, treeRemove]

/-- C10: `DB::get(key)` is non-absent exactly when the trie holds a value
at the key and that value is a dict. -/
theorem DB_get_isSome_iff_dict {D : Type _} (t : List (Key × FValue D)) (k : Key) :
    (DBget t k).isSome = true ↔ ∃ d, treeGet t k = some (FValue.dict d) := by
  unfold DBget
  cases h : treeGet t k with
  | none => simp
  | some v =>
    cases v with
    | dict d => simp [FValue.asDict]
    | nonDict p => simp [FValue.asDict]

/-- C8: a checkpoint is legal iff it is within the loaded data and
page-aligned, the two data-slice operations return the absent slice
exactly on an illegal checkpoint, and on a legal one they return the
prefix of length `c` and the matching suffix of the loaded data. -/
theorem checkpoint_api_correct (data : List Nat) (ps c : Nat) (hps : 0 < ps) :
    (isLegalCheckpoint data ps c = true ↔ (c ≤ data.length ∧ c % ps = 0))
    ∧ (dataUpToCheckpoint data ps c = none ↔ isLegalCheckpoint data ps c = false)
    ∧ (dataSinceCheckpoint data ps c = none ↔ isLegalCheckpoint data ps c = false)
    ∧ (isLegalCheckpoint data ps c = true →
        ∃ pre suf, dataUpToCheckpoint data ps c = some pre
          ∧ dataSinceCheckpoint data ps c = some suf
          ∧ pre.length = c ∧ pre ++ suf = data) := by
  refine ⟨?_, ?_, ?_, ?_⟩
  · simp [isLegalCheckpoint]
  · cases h : isLegalCheckpoint data ps c <;> simp [dataUpToCheckpoint, h]
  · cases h : isLegalCheckpoint data ps c <;> simp [dataSinceCheckpoint, h]
  · intro h
    have hle : c ≤ data.length := by
      have := (by simp [isLegalCheckpoint] : isLegalCheckpoint data ps c = true ↔
        (c ≤ data.length ∧ c % ps = 0)).mp h
      exact this.1
    exact ⟨data.take c, data.drop c, by simp [dataUpToCheckpoint, h],
      by simp [dataSinceCheckpoint, h],
      by simp [List.length_take]; omega,
      List.take_append_drop c data⟩

/-- Witness for `checkpoint_api_correct` at a concrete configuration. -/
theorem checkpoint_api_correct_witness :
    0 < 4
    ∧ (isLegalCheckpoint [0, 1, 2, 3, 4, 5, 6, 7] 4 4 = true
        ↔ (4 ≤ ([0, 1, 2, 3, 4, 5, 6, 7] : List Nat).length ∧ 4 % 4 = 0))
    ∧ (dataUpToCheckpoint [0, 1, 2, 3, 4, 5, 6, 7] 4 4 = none
        ↔ isLegalCheckpoint [0, 1, 2, 3, 4, 5, 6, 7] 4 4 = false)
    ∧ (dataSinceCheckpoint [0, 1, 2, 3, 4, 5, 6, 7] 4 4 = none
        ↔ isLegalCheckpoint [0, 1, 2, 3, 4, 5, 6, 7] 4 4 = false)
    ∧ (isLegalCheckpoint [0, 1, 2, 3, 4, 5, 6, 7] 4 4 = true →
        ∃ pre suf, dataUpToCheckpoint [0, 1, 2, 3, 4, 5, 6, 7] 4 4 = some pre
          ∧ dataSinceCheckpoint [0, 1, 2, 3, 4, 5, 6, 7] 4 4 = some suf
          ∧ pre.length = 4 ∧ pre ++ suf = [0, 1, 2, 3, 4, 5, 6, 7]) :=
  ⟨by decide, checkpoint_api_correct [0, 1, 2, 3, 4, 5, 6, 7] 4 4 (by decide)⟩


/-- Rounding up to the next page multiple, as `writeToFile` does it,
produces a page multiple. -/
theorem roundUpPage_mod (F0 ps : Nat) (hps : 0 < ps) :
    (if F0 % ps ≠ 0 then F0 + (ps - F0 % ps) else F0) % ps = 0 := by
  by_cases hz : F0 % ps = 0
  · simpa [hz]
  · rw [if_pos (by simpa using hz)]
    have hdm := Nat.div_add_mod F0 ps
    have hrlt : F0 % ps < ps := Nat.mod_lt _ hps
    have hmul : F0 + (ps - F0 % ps) = ps * (F0 / ps + 1) := by
      rw [Nat.mul_succ]; omega
    rw [hmul]
    exact Nat.mul_mod_right _ _

/-- Rounding up to the next page multiple never shrinks. -/
theorem roundUpPage_ge (F0 ps : Nat) :
    F0 ≤ (if F0 % ps ≠ 0 then F0 + (ps - F0 % ps) else F0) := by
  split <;> omega

/-- The arithmetic shape of `writeToFile`: its final position rounds
`trieStart + encBytes + 32` up to a page multiple; the trie starts at or
after the append position; and the trailer fields are as written by the
source (32-bit-cast `treeOffset`, `prevTrailerPos` of `_data.size` for a
delta and 0 otherwise). -/
theorem writeToFile_shape (dataSize : Nat) (delta : Bool) (ftellPos encBytes ps : Nat) :
    ((writeToFile dataSize delta ftellPos encBytes ps).finalPos
      = (if ((writeToFile dataSize delta ftellPos encBytes ps).trieStart + encBytes + 32) % ps ≠ 0
         then ((writeToFile dataSize delta ftellPos encBytes ps).trieStart + encBytes + 32)
           + (ps - ((writeToFile dataSize delta ftellPos encBytes ps).trieStart + encBytes + 32) % ps)
         else ((writeToFile dataSize delta ftellPos encBytes ps).trieStart + encBytes + 32)))
    ∧ (if delta then dataSize else ftellPos)
        ≤ (writeToFile dataSize delta ftellPos encBytes ps).trieStart
    ∧ ((writeToFile dataSize delta ftellPos encBytes ps).trailer.treeOffset
      = ((writeToFile dataSize delta ftellPos encBytes ps).finalPos - 32
          - ((writeToFile dataSize delta ftellPos encBytes ps).trieStart + encBytes)) % 2 ^ 32)
    ∧ ((writeToFile dataSize delta ftellPos encBytes ps).trailer.prevTrailerPos
      = (if delta then dataSize else 0)) :=
  ⟨rfl, by cases delta <;> by_cases hz : dataSize = 0 <;> simp [writeToFile, hz], rfl, rfl⟩

/-- C4: a successful `commitChanges` append (tree changed) yields a new
file size that is page-aligned and at least a full page beyond the
previous loaded size. -/
theorem commit_page_alignment (B encBytes ps n : Nat) (hps : 0 < ps) (hB : B % ps = 0)
    (h : commitChanges B true encBytes ps = some n) :
    n % ps = 0 ∧ B + ps ≤ n := by
  have hn : (writeToFile B true B encBytes ps).finalPos = n := by
    have hc : commitChanges B true encBytes ps
        = some ((writeToFile B true B encBytes ps).finalPos) := rfl
    rw [hc] at h
    exact Option.some.inj h
  obtain ⟨hfin, hle, -, -⟩ := writeToFile_shape B true B encBytes ps
  rw [← hn, hfin]
  set tS := (writeToFile B true B encBytes ps).trieStart with htS
  have hBle : B ≤ tS := by simpa using hle
  set F0 := tS + encBytes + 32 with hF0
  have hmod := roundUpPage_mod F0 ps hps
  have hge := roundUpPage_ge F0 ps
  exact ⟨hmod, page_gap hps hB hmod (by omega)⟩

/-- Witness for `commit_page_alignment`: a delta append over a 4096-byte
snapshot writing 100 trie bytes grows the file to 8192. -/
theorem commit_page_alignment_witness :
    0 < 4096 ∧ 4096 % 4096 = 0
    ∧ commitChanges 4096 true 100 4096 = some 8192
    ∧ (8192 % 4096 = 0 ∧ 4096 + 4096 ≤ 8192) :=
  ⟨by decide, by decide, by decide,
    commit_page_alignment 4096 100 4096 8192 (by decide) (by decide) (by decide)⟩

/-- C3 counterexample: in a delta append over a 4096-byte snapshot with 2
encoded trie bytes and page size 4096, the written `treeOffset` is 4062 =
(finalPos − 32) − (end of the trie bytes), not
(finalPos − 32) − (start of the trie bytes) = 4064 as the claim states. -/
theorem writeToFile_treeOffset_counterexample :
    ¬ ((writeToFile 4096 true 0 2 4096).trailer.treeOffset
        = (writeToFile 4096 true 0 2 4096).finalPos - 32
          - (writeToFile 4096 true 0 2 4096).trieStart) := by
  decide

/-- C3 as amended: the trailer's `treeOffset` equals `finalPos − 32`
minus the file offset at which the newly serialized trie bytes end
(their start plus `enc.bytesWritten()`), and `prevTrailerPos` is the
previous loaded size `B` for a delta commit and 0 for a non-delta
`writeTo`. -/
theorem writeToFile_trailer_fields (dataSize : Nat) (delta : Bool) (ftellPos : Nat)
    (encBytes ps : Nat) (hps : 0 < ps) (hps32 : ps ≤ 2 ^ 32) :
    (writeToFile dataSize delta ftellPos encBytes ps).trailer.treeOffset
      = (writeToFile dataSize delta ftellPos encBytes ps).finalPos - 32
        - ((writeToFile dataSize delta ftellPos encBytes ps).trieStart + encBytes)
    ∧ (writeToFile dataSize delta ftellPos encBytes ps).trailer.prevTrailerPos
      = (if delta then dataSize else 0) := by
  obtain ⟨hfin, -, hoff, hprev⟩ := writeToFile_shape dataSize delta ftellPos encBytes ps
  refine ⟨?_, hprev⟩
  rw [hoff, hfin]
  set tS := (writeToFile dataSize delta ftellPos encBytes ps).trieStart with htS
  set F0 := tS + encBytes + 32 with hF0
  have hrlt : F0 % ps < ps := Nat.mod_lt _ hps
  apply Nat.mod_eq_of_lt
  split <;> omega

/-- Witness for `writeToFile_trailer_fields` at a concrete input. -/
theorem writeToFile_trailer_fields_witness :
    0 < 4096 ∧ 4096 ≤ 2 ^ 32
    ∧ ((writeToFile 4096 true 0 2 4096).trailer.treeOffset
        = (writeToFile 4096 true 0 2 4096).finalPos - 32
          - ((writeToFile 4096 true 0 2 4096).trieStart + 2)
      ∧ (writeToFile 4096 true 0 2 4096).trailer.prevTrailerPos = (if true then 4096 else 0)) :=
  ⟨by decide, by decide, writeToFile_trailer_fields 4096 true 0 2 4096 (by decide) (by decide)⟩

/-- The validation condition exactly as the claim states it for a trailer
ending at `S`: both magics match, `prevTrailerPos` is at most
`S − pageSize` and page-aligned, and the derived
`treePos = S − 32 − treeOffset` is at least `prevTrailerPos` and even. -/
def specTrailerValid (f : DBFile) (pageSize S : Nat) : Prop :=
  (f.trailerAt S).magic1 = kTrailerMagic1
  ∧ (f.trailerAt S).magic2 = kTrailerMagic2
  ∧ (f.trailerAt S).prevTrailerPos ≤ S - pageSize
  ∧ (f.trailerAt S).prevTrailerPos % pageSize = 0
  ∧ (((f.trailerAt S).prevTrailerPos : Int) ≤ (S : Int) - 32 - ((f.trailerAt S).treeOffset : Int))
  ∧ (2 : Int) ∣ ((S : Int) - 32 - ((f.trailerAt S).treeOffset : Int))

/-- `DB::validateTrailer` succeeds under the claim's conditions, loading
the data range `[0, S)`, recording `prevTrailerPos`, and placing the tree
end at `S − 32 − treeOffset`. -/
theorem validateTrailer_spec (f : DBFile) (ps S : Nat) (hps : 0 < ps) (hle : ps ≤ S)
    (hal : S % ps = 0) (hv : specTrailerValid f ps S) :
    validateTrailer f ps S
      = some ⟨S, (f.trailerAt S).prevTrailerPos,
          ((S : Int) - 32 - ((f.trailerAt S).treeOffset : Int)).toNat⟩ := by
  obtain ⟨hm1, hm2, hprevle, hprevmod, htpge, htpeven⟩ := hv
  have hprev0 : (0 : Int) ≤ ((f.trailerAt S).prevTrailerPos : Int) := Int.natCast_nonneg _
  simp only [validateTrailer]
  rw [if_neg (by omega)]
  rw [if_neg (by simp [hm1, hm2])]
  rw [if_neg (by omega)]
  rw [if_neg (by push_neg; omega)]

/-- `DB::validateTrailer` fails when the claim's conditions do not hold. -/
theorem validateTrailer_none (f : DBFile) (ps S : Nat) (hps : 0 < ps) (hle : ps ≤ S)
    (hal : S % ps = 0) (hnv : ¬ specTrailerValid f ps S) :
    validateTrailer f ps S = none := by
  simp only [validateTrailer]
  rw [if_neg (by omega)]
  by_cases h1 : (f.trailerAt S).magic1 ≠ kTrailerMagic1 ∨ (f.trailerAt S).magic2 ≠ kTrailerMagic2
  · rw [if_pos h1]
  · rw [if_neg h1]
    push_neg at h1
    by_cases h2 : (f.trailerAt S).prevTrailerPos > S - ps
        ∨ (f.trailerAt S).prevTrailerPos % ps ≠ 0
    · rw [if_pos h2]
    · rw [if_neg h2]
      push_neg at h2
      have h4 : (S : Int) - 32 - ((f.trailerAt S).treeOffset : Int) < 0
          ∨ (S : Int) - 32 - ((f.trailerAt S).treeOffset : Int)
              < ((f.trailerAt S).prevTrailerPos : Int)
          ∨ ((S : Int) - 32 - ((f.trailerAt S).treeOffset : Int)) % 2 ≠ 0 := by
        by_contra h4
        push_neg at h4
        exact hnv ⟨h1.1, h1.2, h2.1, h2.2, h4.2.1,
          Int.dvd_of_emod_eq_zero h4.2.2⟩
      rw [if_pos h4]

/-- C1: one step of the snapshot-load scan at a page-aligned target size
`S > 0`: when the trailer ending at `S` passes the claim's validation the
scan succeeds, setting the loaded data range to `[0, S)` and recording
`prevTrailerPos` as the previous checkpoint; when validation fails the
load raises `InvalidData` if `S ≤ pageSize` or `pageSize == 1`, and
otherwise retries at `S − pageSize`. -/
theorem trailerScan_step (f : DBFile) (ps S : Nat) (hps : 0 < ps) (hS : 0 < S)
    (hal : S % ps = 0) :
    (specTrailerValid f ps S →
      trailerScan f ps S
        = LoadResult.ok ⟨S, (f.trailerAt S).prevTrailerPos,
            ((S : Int) - 32 - ((f.trailerAt S).treeOffset : Int)).toNat⟩)
    ∧ (¬ specTrailerValid f ps S → (S ≤ ps ∨ ps = 1) →
        trailerScan f ps S = LoadResult.invalidData)
    ∧ (¬ specTrailerValid f ps S → ¬ (S ≤ ps ∨ ps = 1) →
        trailerScan f ps S = trailerScan f ps (S - ps)) := by
  have hle : ps ≤ S := Nat.le_of_dvd hS (Nat.dvd_of_mod_eq_zero hal)
  refine ⟨?_, ?_, ?_⟩
  · intro hv
    rw [trailerScan.eq_def, validateTrailer_spec f ps S hps hle hal hv]
  · intro hnv hsmall
    rw [trailerScan.eq_def, validateTrailer_none f ps S hps hle hal hnv]
    simp [hsmall]
  · intro hnv hbig
    conv_lhs => rw [trailerScan.eq_def]
    rw [validateTrailer_none f ps S hps hle hal hnv]
    simp only
    rw [if_neg hbig, if_neg (by omega : ¬ ps = 0)]


/-- The digit accumulation `digitsVal` with an arbitrary starting
accumulator (the loop invariant value of `_parseUInt`'s `n`). -/
def digitsFromAux (n : Nat) (ds : List Nat) : Nat :=
  ds.foldl (fun m b => m * 10 + (b - 48)) n

theorem digitsFromAux_ge (n : Nat) (ds : List Nat) : n ≤ digitsFromAux n ds := by
  induction ds generalizing n with
  | nil => simp [digitsFromAux]
  | cons b rest ih =>
    have h1 : digitsFromAux n (b :: rest) = digitsFromAux (n * 10 + (b - 48)) rest := rfl
    have h2 := ih (n * 10 + (b - 48))
    omega

/-- The digit loop of `_parseUInt` computes the exact digit value when it
fits in `uint64_t`, and fails exactly when it does not: each per-step
overflow guard fires precisely when the accumulated value would exceed
`UINT64_MAX`, and the accumulated value only grows. -/
theorem parseDigits_spec (ds : List Nat) : ∀ n, (∀ b ∈ ds, isDigitByte b = true) →
    n ≤ UINT64MAX →
    parseDigits ds n
      = if digitsFromAux n ds ≤ UINT64MAX then some (digitsFromAux n ds, []) else none := by
  induction ds with
  | nil =>
    intro n _ hn
    simp [parseDigits, digitsFromAux, hn]
  | cons b rest ih =>
    intro n hall hn
    have hb : isDigitByte b = true := hall b (List.mem_cons_self ..)
    have hb9 : 48 ≤ b ∧ b ≤ 57 := by simpa [isDigitByte] using hb
    have hU : UINT64MAX = 2 ^ 64 - 1 := rfl
    have hfold : digitsFromAux n (b :: rest) = digitsFromAux (n * 10 + (b - 48)) rest := rfl
    have hmono := digitsFromAux_ge (n * 10 + (b - 48)) rest
    simp only [parseDigits, hb, if_true]
    by_cases hov : n * 10 + (b - 48) ≤ UINT64MAX
    · rw [if_neg (by omega), if_neg (by omega)]
      rw [ih (n * 10 + (b - 48)) (fun x hx => hall x (List.mem_cons_of_mem _ hx)) hov]
      rw [hfold]
    · have hcond : ¬ (digitsFromAux n (b :: rest) ≤ UINT64MAX) := by
        rw [hfold]; omega
      rw [if_neg hcond]
      by_cases hg1 : n > UINT64MAX / 10
      · rw [if_pos hg1]
      · rw [if_neg hg1, if_pos (by omega)]

/-- `_parseUInt` on a nonempty all-digit string returns its digit value
when that fits in `uint64_t` and fails otherwise (for either value of
`allowTrailing`; nothing follows the digits). -/
theorem parseUIntSub_digits (ds : List Nat) (t : Bool) (hne : ds ≠ [])
    (hall : ∀ b ∈ ds, isDigitByte b = true) :
    parseUIntSub ds t = if digitsVal ds ≤ UINT64MAX then some (digitsVal ds) else none := by
  match ds, hne with
  | b :: rest, _ =>
    have hb : isDigitByte b = true := hall b (List.mem_cons_self ..)
    have hval : digitsVal (b :: rest) = digitsFromAux 0 (b :: rest) := rfl
    have hred : parseUIntSub (b :: rest) t
        = (if ¬ isDigitByte b then none
           else match parseDigits (b :: rest) 0 with
             | none => none
             | some (n, rest') =>
               if t then some n
               else if rest'.dropWhile isSpaceByte = [] then some n
               else none) := rfl
    rw [hval, hred]
    rw [if_neg (by simp [hb])]
    rw [parseDigits_spec (b :: rest) 0 hall (by simp [UINT64MAX])]
    by_cases hle : digitsFromAux 0 (b :: rest) ≤ UINT64MAX
    · rw [if_pos hle, if_pos hle]
      cases t <;> simp
    · rw [if_neg hle, if_neg hle]

theorem digit_not_space {b : Nat} (hb : isDigitByte b = true) : isSpaceByte b = false := by
  simp only [isDigitByte, Bool.and_eq_true, decide_eq_true_eq] at hb
  simp [isSpaceByte]
  omega

/-- C9: signed `ParseInteger` rejects any digit string whose magnitude
exceeds `INT64_MAX` (non-negative input) or `INT64_MAX + 1` (negative
input); unsigned `ParseInteger` rejects digits that overflow `uint64_t`;
and the boundary string `"-9223372036854775808"` parses to `INT64_MIN`. -/
theorem parseInteger_overflow_boundary :
    (∀ (ds : List Nat) (t : Bool), ds ≠ [] → (∀ b ∈ ds, isDigitByte b = true) →
      ((INT64MAX < digitsVal ds → parseIntegerS ds t = none)
       ∧ (INT64MAX + 1 < digitsVal ds → parseIntegerS (45 :: ds) t = none)
       ∧ (UINT64MAX < digitsVal ds → parseIntegerU ds t = none)))
    ∧ parseIntegerS
        [45, 57, 50, 50, 51, 51, 55, 50, 48, 51, 54, 56, 53, 52, 55, 55, 53, 56, 48, 56] false
      = some (-(2 ^ 63)) := by
  constructor
  · intro ds t hne hall
    match ds, hne with
    | b :: rest, _ =>
      have hb : isDigitByte b = true := hall b (List.mem_cons_self ..)
      have hb9 : 48 ≤ b ∧ b ≤ 57 := by simpa [isDigitByte] using hb
      have hsp : isSpaceByte b = false := digit_not_space hb
      have hUI : UINT64MAX = 2 ^ 64 - 1 := rfl
      have hI : INT64MAX = 2 ^ 63 - 1 := rfl
      have hps := parseUIntSub_digits (b :: rest) t (by simp) hall
      have hdw : List.dropWhile isSpaceByte (b :: rest) = b :: rest := by
        rw [List.dropWhile_cons, hsp]
        simp
      have hb45 : (b == 45) = false := by
        rw [beq_eq_false_iff_ne]
        omega
      refine ⟨?_, ?_, ?_⟩
      · intro hbig
        simp only [parseIntegerS, hdw]
        rw [if_neg (by omega : ¬ (b = 45 ∨ b = 43))]
        rw [hps]
        by_cases hfits : digitsVal (b :: rest) ≤ UINT64MAX
        · rw [if_pos hfits]
          simp only [hb45, Bool.false_eq_true, if_false]
          rw [if_pos (by omega : INT64MAX < digitsVal (b :: rest))]
        · rw [if_neg hfits]
      · intro hbig
        have hred : parseIntegerS (45 :: b :: rest) t
            = (match parseUIntSub (b :: rest) t with
               | none => none
               | some u =>
                 if u ≤ INT64MAX then some (-(u : Int))
                 else if u = INT64MAX + 1 then some (-(2 ^ 63 : Int))
                 else none) := rfl
        rw [hred, hps]
        by_cases hfits : digitsVal (b :: rest) ≤ UINT64MAX
        · rw [if_pos hfits]
          show (if digitsVal (b :: rest) ≤ INT64MAX then some (-(digitsVal (b :: rest) : Int))
                else if digitsVal (b :: rest) = INT64MAX + 1 then some (-(2 ^ 63 : Int))
                else none) = none
          rw [if_neg (by omega), if_neg (by omega)]
        · rw [if_neg hfits]
      · intro hbig
        simp only [parseIntegerU, hdw]
        rw [if_neg (by omega : ¬ b = 43)]
        rw [hps, if_neg (by omega)]
  · decide

/-- A concrete one-snapshot DB file whose trailer at 4096 is valid. -/
def sampleDBFile : DBFile :=
  { header := { magicText := kHeaderMagicText, size := 24, magic2 := kHeaderMagic2 }
    trailerAt := fun _ =>
      { magic1 := kTrailerMagic1
        treeOffset := 32
        padding := 0
        prevTrailerPos := 0
        magic2 := kTrailerMagic2 } }

/-- Witness for `trailerScan_step`: the valid trailer at 4096 loads data
range `[0, 4096)` with previous checkpoint 0 and tree end 4032. -/
theorem trailerScan_step_witness :
    specTrailerValid sampleDBFile 4096 4096
    ∧ trailerScan sampleDBFile 4096 4096 = LoadResult.ok ⟨4096, 0, 4032⟩ := by
  have hv : specTrailerValid sampleDBFile 4096 4096 :=
    ⟨rfl, rfl, by decide, by decide, by decide, ⟨2016, by decide⟩⟩
  exact ⟨hv, (trailerScan_step sampleDBFile 4096 4096 (by decide) (by decide) (by decide)).1 hv⟩

/-- Witness for `parseInteger_overflow_boundary`: twenty nines overflow
all three bounds and every parse fails. -/
theorem parseInteger_overflow_boundary_witness :
    ([57, 57, 57, 57, 57, 57, 57, 57, 57, 57, 57, 57, 57, 57, 57, 57, 57, 57, 57, 57]
        ≠ ([] : List Nat))
    ∧ (∀ b ∈ [57, 57, 57, 57, 57, 57, 57, 57, 57, 57, 57, 57, 57, 57, 57, 57, 57, 57, 57, 57],
        isDigitByte b = true)
    ∧ parseIntegerS
        [57, 57, 57, 57, 57, 57, 57, 57, 57, 57, 57, 57, 57, 57, 57, 57, 57, 57, 57, 57]
        false = none
    ∧ parseIntegerS
        (45 :: [57, 57, 57, 57, 57, 57, 57, 57, 57, 57, 57, 57, 57, 57, 57, 57, 57, 57, 57, 57])
        false = none
    ∧ parseIntegerU
        [57, 57, 57, 57, 57, 57, 57, 57, 57, 57, 57, 57, 57, 57, 57, 57, 57, 57, 57, 57]
        false = none := by
  have h := parseInteger_overflow_boundary.1
    [57, 57, 57, 57, 57, 57, 57, 57, 57, 57, 57, 57, 57, 57, 57, 57, 57, 57, 57, 57]
    false (by decide) (by decide)
  exact ⟨by decide, by decide, h.1 (by decide), h.2.1 (by decide), h.2.2 (by decide)⟩

instance {V : Type _} (d : HeapDict V) : Decidable (countInvariant d) :=
  inferInstanceAs (Decidable (d.count = overlayCount d))

/-- C6 (code bug): over the one-key source `{"a": 1}`, `remove("a")`
creates the tombstone slot as a side effect of `_makeValueFor` and then
returns early on `!val`, so `get` turns absent while `_count` stays 1 and
the dict is not even marked changed — the claimed count invariant, which
holds after construction, is broken by `remove` (and `kvArray`'s own
`assert(n == 2*_count)` would fail on this state). -/
theorem heapDict_remove_count_bug :
    countInvariant (HeapDict.fromSource (some [([97], (1 : Nat))]))
    ∧ ¬ countInvariant ((HeapDict.fromSource (some [([97], (1 : Nat))])).remove [97])
    ∧ ((HeapDict.fromSource (some [([97], (1 : Nat))])).remove [97]).get [97] = none
    ∧ ((HeapDict.fromSource (some [([97], (1 : Nat))])).remove [97]).count = 1
    ∧ ((HeapDict.fromSource (some [([97], (1 : Nat))])).remove [97]).changed = false := by
  refine ⟨by decide, by decide, by decide, by decide, by decide⟩

/-- C7 counterexample: on a `HeapDict` with no source (so `_count == 0`),
`removeAll` returns without marking the dict changed, contrary to the
claim that it always marks it changed. -/
theorem removeAll_not_always_marks_changed :
    ¬ ((HeapDict.fromSource (none : Option (List (Key × Nat)))).removeAll.changed = true) := by
  decide

theorem foldMVF_source {V : Type _} (s : List (Key × V)) (dd : HeapDict V) :
    (s.foldl (fun dd (e : Key × V) => makeValueFor dd e.1) dd).source = dd.source := by
  induction s generalizing dd with
  | nil => rfl
  | cons e s' ih =>
    rw [List.foldl_cons, ih]
    unfold makeValueFor
    split <;> rfl

theorem foldMVF_count {V : Type _} (s : List (Key × V)) (dd : HeapDict V) :
    (s.foldl (fun dd (e : Key × V) => makeValueFor dd e.1) dd).count = dd.count := by
  induction s generalizing dd with
  | nil => rfl
  | cons e s' ih =>
    rw [List.foldl_cons, ih]
    unfold makeValueFor
    split <;> rfl

/-- Folding `_makeValueFor` over a list of keys: every key already mapped
keeps its slot, every processed fresh key gains an empty slot, and nothing
else appears. -/
theorem foldMVF_map {V : Type _} (s : List (Key × V)) (dd : HeapDict V) (k : Key) :
    alookup ((s.foldl (fun dd (e : Key × V) => makeValueFor dd e.1) dd).map) k
      = if (alookup dd.map k).isSome then alookup dd.map k
        else if k ∈ s.map Prod.fst then some none else none := by
  induction s generalizing dd with
  | nil =>
    cases h : alookup dd.map k <;> simp [h]
  | cons e s' ih =>
    rw [List.foldl_cons, ih]
    by_cases hsome : (alookup dd.map e.1).isSome
    · have hdd : makeValueFor dd e.1 = dd := by
        unfold makeValueFor
        rw [if_pos hsome]
      rw [hdd]
      by_cases hk : (alookup dd.map k).isSome
      · rw [if_pos hk, if_pos hk]
      · rw [if_neg hk, if_neg hk]
        have hne : k ≠ e.1 := by
          intro he
          rw [he] at hk
          exact hk hsome
        by_cases hmem : k ∈ s'.map Prod.fst
        · rw [if_pos hmem, if_pos (by simp [hmem])]
        · rw [if_neg hmem, if_neg (by simp [hne, hmem])]
    · have hdd : makeValueFor dd e.1
          = { dd with map := mapInsert dd.map e.1 none,
                      backingSlices := dd.backingSlices ++ [e.1] } := by
        unfold makeValueFor
        rw [if_neg hsome]
      rw [hdd]
      simp only [alookup_mapInsert]
      by_cases hk : k = e.1
      · subst hk
        have h0 : alookup dd.map e.1 = none := Option.not_isSome_iff_eq_none.mp hsome
        rw [if_pos rfl]
        simp [h0]
      · rw [if_neg hk]
        by_cases hks : (alookup dd.map k).isSome
        · rw [if_pos hks, if_pos hks]
        · rw [if_neg hks, if_neg hks]
          by_cases hmem : k ∈ s'.map Prod.fst
          · rw [if_pos hmem, if_pos (by simp [hmem])]
          · rw [if_neg hmem, if_neg (by simp [hk, hmem])]

/-- Folding `_makeValueFor` over a list of keys pushes exactly the fresh
processed keys onto `_backingSlices`. -/
theorem foldMVF_backing {V : Type _} (s : List (Key × V)) (dd : HeapDict V) (k : Key) :
    (k ∈ (s.foldl (fun dd (e : Key × V) => makeValueFor dd e.1) dd).backingSlices)
      ↔ (k ∈ dd.backingSlices ∨ ((alookup dd.map k).isNone ∧ k ∈ s.map Prod.fst)) := by
  induction s generalizing dd with
  | nil => simp
  | cons e s' ih =>
    rw [List.foldl_cons, ih]
    by_cases hsome : (alookup dd.map e.1).isSome
    · have hdd : makeValueFor dd e.1 = dd := by
        unfold makeValueFor
        rw [if_pos hsome]
      rw [hdd]
      by_cases hk : k = e.1
      · subst hk
        have h0 : ¬ (alookup dd.map e.1 = none) := by
          intro h
          rw [h] at hsome
          simp at hsome
        simp [h0]
      · simp [hk]
    · have hdd : makeValueFor dd e.1
          = { dd with map := mapInsert dd.map e.1 none,
                      backingSlices := dd.backingSlices ++ [e.1] } := by
        unfold makeValueFor
        rw [if_neg hsome]
      rw [hdd]
      simp only [alookup_mapInsert, List.mem_append, List.mem_singleton, List.map_cons,
        List.mem_cons]
      by_cases hk : k = e.1
      · subst hk
        have h0 : alookup dd.map e.1 = none := Option.not_isSome_iff_eq_none.mp hsome
        simp [h0]
      · rw [if_neg hk]
        simp [hk]

theorem sourceGet_congr {V : Type _} {d' d : HeapDict V} (h : d'.source = d.source) (k : Key) :
    sourceGet d' k = sourceGet d k := by
  unfold sourceGet
  rw [h]

/-- C7 as amended: when `_count ≠ 0`, `removeAll` zeroes the count, marks
the dict changed, keeps the source, rebuilds the overlay map as exactly a
tombstone per source key (the backing slices holding exactly the source
keys), and makes `get` absent everywhere; when `_count = 0` it is a
no-op — in particular it does not mark the dict changed — and, provided
the count invariant holds, `get` is already absent everywhere. -/
theorem removeAll_amended {V : Type _} (d : HeapDict V) :
    (d.count ≠ 0 →
      (d.removeAll.count = 0
       ∧ d.removeAll.changed = true
       ∧ d.removeAll.source = d.source
       ∧ (∀ k, alookup d.removeAll.map k
            = if (sourceGet d k).isSome then some none else none)
       ∧ (∀ k, k ∈ d.removeAll.backingSlices ↔ (sourceGet d k).isSome = true)
       ∧ (∀ k, d.removeAll.get k = none)))
    ∧ (d.count = 0 →
      (d.removeAll = d ∧ (countInvariant d → ∀ k, d.get k = none))) := by
  constructor
  · intro hc
    have hmap : ∀ k, alookup d.removeAll.map k
        = if (sourceGet d k).isSome then some none else none := by
      intro k
      unfold HeapDict.removeAll
      rw [if_neg hc]
      cases hsrc : d.source with
      | none =>
        simp [sourceGet, hsrc]
      | some s =>
        simp only
        rw [foldMVF_map]
        simp only [alookup_nil, Option.isSome_none, Bool.false_eq_true, if_false]
        have hsg : sourceGet d k = alookup s k := by
          unfold sourceGet
          rw [hsrc]
        rw [hsg]
        by_cases hm : k ∈ s.map Prod.fst
        · rw [if_pos hm, if_pos (alookup_isSome_iff.mpr hm)]
        · rw [if_neg hm, if_neg (by rw [alookup_isSome_iff]; exact hm)]
    have hsource : d.removeAll.source = d.source := by
      unfold HeapDict.removeAll
      rw [if_neg hc]
      cases hsrc : d.source with
      | none => simp only
      | some s =>
        simp only
        rw [foldMVF_source]
    refine ⟨?_, ?_, hsource, hmap, ?_, ?_⟩
    · unfold HeapDict.removeAll
      rw [if_neg hc]
    · unfold HeapDict.removeAll
      rw [if_neg hc]
    · intro k
      unfold HeapDict.removeAll
      rw [if_neg hc]
      cases hsrc : d.source with
      | none =>
        simp [sourceGet, hsrc]
      | some s =>
        simp only
        rw [foldMVF_backing]
        simp only [List.not_mem_nil, alookup_nil, Option.isNone_none, true_and, false_or]
        have hsg : sourceGet d k = alookup s k := by
          unfold sourceGet
          rw [hsrc]
        rw [hsg, alookup_isSome_iff]
    · intro k
      have hg := hmap k
      by_cases hs : (sourceGet d k).isSome
      · rw [if_pos hs] at hg
        simp [HeapDict.get, hg]
      · rw [if_neg hs] at hg
        simp only [HeapDict.get, hg]
        rw [sourceGet_congr hsource k]
        exact Option.not_isSome_iff_eq_none.mp hs
  · intro hc
    constructor
    · unfold HeapDict.removeAll
      rw [if_pos hc]
    · intro hinv k
      have hAB : overlayCount d = 0 := by
        unfold countInvariant at hinv
        omega
      cases hm : alookup d.map k with
      | none =>
        simp only [HeapDict.get, hm]
        cases hs : sourceGet d k with
        | none => rfl
        | some w =>
          exfalso
          cases hsrc : d.source with
          | none =>
            unfold sourceGet at hs
            rw [hsrc] at hs
            cases hs
          | some s =>
            have hks : alookup s k = some w := by
              unfold sourceGet at hs
              rw [hsrc] at hs
              exact hs
            have hmem : (k, w) ∈ s := alookup_mem hks
            have hform : overlayCount d
                = (s.filter fun e =>
                    match alookup d.map e.1 with
                    | some none => false
                    | _ => true).length
                  + (d.map.filter
                      (fun e => e.2.isSome && (sourceGet d e.1).isNone)).length := by
              unfold overlayCount
              rw [hsrc]
            have hlenA : (s.filter fun e =>
                match alookup d.map e.1 with
                | some none => false
                | _ => true).length = 0 := by omega
            have hfil : (k, w) ∈ s.filter fun e =>
                match alookup d.map e.1 with
                | some none => false
                | _ => true := by
              rw [List.mem_filter]
              refine ⟨hmem, ?_⟩
              rw [hm]
            rw [List.length_eq_zero] at hlenA
            rw [hlenA] at hfil
            cases hfil
      | some slot =>
        cases slot with
        | none => simp [HeapDict.get, hm]
        | some v =>
          exfalso
          by_cases hs : (sourceGet d k).isSome
          · cases hsrc : d.source with
            | none =>
              unfold sourceGet at hs
              rw [hsrc] at hs
              simp at hs
            | some s =>
              have hks : ∃ w, alookup s k = some w := by
                unfold sourceGet at hs
                rw [hsrc] at hs
                exact Option.isSome_iff_exists.mp hs
              obtain ⟨w, hw⟩ := hks
              have hmem : (k, w) ∈ s := alookup_mem hw
              have hform : overlayCount d
                  = (s.filter fun e =>
                      match alookup d.map e.1 with
                      | some none => false
                      | _ => true).length
                    + (d.map.filter
                        (fun e => e.2.isSome && (sourceGet d e.1).isNone)).length := by
                unfold overlayCount
                rw [hsrc]
              have hlenA : (s.filter fun e =>
                  match alookup d.map e.1 with
                  | some none => false
                  | _ => true).length = 0 := by omega
              have hfil : (k, w) ∈ s.filter fun e =>
                  match alookup d.map e.1 with
                  | some none => false
                  | _ => true := by
                rw [List.mem_filter]
                refine ⟨hmem, ?_⟩
                rw [hm]
              rw [List.length_eq_zero] at hlenA
              rw [hlenA] at hfil
              cases hfil
          · have hmem : (k, some v) ∈ d.map := alookup_mem hm
            have hlenB : (d.map.filter
                (fun e => e.2.isSome && (sourceGet d e.1).isNone)).length = 0 := by
              unfold overlayCount at hAB
              omega
            have hfil : (k, some v) ∈ d.map.filter
                (fun e => e.2.isSome && (sourceGet d e.1).isNone) := by
              rw [List.mem_filter]
              refine ⟨hmem, ?_⟩
              simp [Option.not_isSome_iff_eq_none.mp hs]
            rw [List.length_eq_zero] at hlenB
            rw [hlenB] at hfil
            cases hfil

/-- A two-key source dict for exercising the overlay operations. -/
def sampleHeapDict : HeapDict Nat :=
  HeapDict.fromSource (some [([97], 1), ([98], 2)])

/-- Witness for `removeAll_amended` at a concrete nonempty dict and a
concrete empty one. -/
theorem removeAll_amended_witness :
    (sampleHeapDict.removeAll.count = 0
     ∧ sampleHeapDict.removeAll.changed = true
     ∧ sampleHeapDict.removeAll.source = sampleHeapDict.source
     ∧ (∀ k, alookup sampleHeapDict.removeAll.map k
          = if (sourceGet sampleHeapDict k).isSome then some none else none)
     ∧ (∀ k, k ∈ sampleHeapDict.removeAll.backingSlices
          ↔ (sourceGet sampleHeapDict k).isSome = true)
     ∧ (∀ k, sampleHeapDict.removeAll.get k = none))
    ∧ ((HeapDict.fromSource (none : Option (List (Key × Nat)))).removeAll
          = HeapDict.fromSource (none : Option (List (Key × Nat)))
       ∧ (countInvariant (HeapDict.fromSource (none : Option (List (Key × Nat)))) →
           ∀ k, (HeapDict.fromSource (none : Option (List (Key × Nat)))).get k = none)) :=
  ⟨(removeAll_amended sampleHeapDict).1 (by decide),
   (removeAll_amended (HeapDict.fromSource (none : Option (List (Key × Nat))))).2 (by decide)⟩

/-! ### Sorted-merge lemmas for the iterator -/

theorem sortedK_bound {A : Type _} {x : Key × A} {xs : List (Key × A)} (h : SortedK (x :: xs))
    {k : Key} (hk : k ∈ xs.map Prod.fst) : keyLt x.1 k = true := by
  rw [SortedK, List.pairwise_cons] at h
  obtain ⟨q, hq, rfl⟩ := List.mem_map.mp hk
  exact h.1 q hq

theorem sortedK_tail {A : Type _} {x : Key × A} {xs : List (Key × A)} (h : SortedK (x :: xs)) :
    SortedK xs :=
  (List.pairwise_cons.mp h).2

theorem sortedK_head_not_mem {A : Type _} {x : Key × A} {xs : List (Key × A)}
    (h : SortedK (x :: xs)) : x.1 ∉ xs.map Prod.fst := by
  intro hx
  have := sortedK_bound h hx
  simp [keyLt_irrefl] at this

theorem mergedEntries_nil_nil {V : Type _} :
    mergedEntries ([] : List (Key × V)) ([] : List (Key × Option V)) = [] := by
  rw [mergedEntries.eq_def]

theorem mergedEntries_cons_nil {V : Type _} (sk : Key) (sv : V) (src : List (Key × V)) :
    mergedEntries ((sk, sv) :: src) ([] : List (Key × Option V))
      = (sk, sv) :: mergedEntries src [] := by
  rw [mergedEntries.eq_def]

theorem mergedEntries_nil_cons {V : Type _} (nk : Key) (slot : Option V)
    (ovl : List (Key × Option V)) :
    mergedEntries ([] : List (Key × V)) ((nk, slot) :: ovl)
      = (match slot with
         | some v => (nk, v) :: mergedEntries ([] : List (Key × V)) ovl
         | none => mergedEntries ([] : List (Key × V)) ovl) := by
  rw [mergedEntries.eq_def]

theorem mergedEntries_cons_cons {V : Type _} (sk : Key) (sv : V) (src : List (Key × V))
    (nk : Key) (slot : Option V) (ovl : List (Key × Option V)) :
    mergedEntries ((sk, sv) :: src) ((nk, slot) :: ovl)
      = (if keyLt sk nk then
          (sk, sv) :: mergedEntries src ((nk, slot) :: ovl)
        else if sk = nk then
          match slot with
          | some v => (nk, v) :: mergedEntries src ovl
          | none => mergedEntries src ovl
        else
          match slot with
          | some v => (nk, v) :: mergedEntries ((sk, sv) :: src) ovl
          | none => mergedEntries ((sk, sv) :: src) ovl) := by
  rw [mergedEntries.eq_def]

/-- Every key of the merged entry list comes from the source or the
overlay. -/
theorem mergedEntries_mem_keys {V : Type _} :
    ∀ (src : List (Key × V)) (ovl : List (Key × Option V)) (k : Key) (v : V),
      (k, v) ∈ mergedEntries src ovl →
      k ∈ src.map Prod.fst ∨ k ∈ ovl.map Prod.fst := by
  intro src ovl
  induction src, ovl using mergedEntries.induct with
  | case1 =>
    intro k v h
    simp [mergedEntries_nil_nil] at h
  | case2 sk sv src ih =>
    intro k v h
    rw [mergedEntries_cons_nil] at h
    rcases List.mem_cons.mp h with he | ht
    · injection he with h1 h2
      subst h1
      left; simp
    · rcases ih k v ht with hl | hr
      · left; simp [hl]
      · simp at hr
  | case3 nk ovl v0 ih =>
    intro k v h
    rw [mergedEntries_nil_cons] at h
    rcases List.mem_cons.mp h with he | ht
    · injection he with h1 h2
      subst h1
      right; simp
    · rcases ih k v ht with hl | hr
      · simp at hl
      · right; simp [hr]
  | case4 nk ovl ih =>
    intro k v h
    rw [mergedEntries_nil_cons] at h
    rcases ih k v h with hl | hr
    · simp at hl
    · right; simp [hr]
  | case5 sk sv src nk slot ovl hlt ih =>
    intro k v h
    rw [mergedEntries_cons_cons, if_pos hlt] at h
    rcases List.mem_cons.mp h with he | ht
    · injection he with h1 h2
      subst h1
      left; simp
    · rcases ih k v ht with hl | hr
      · left; simp [hl]
      · right; simpa using hr
  | case6 sv src nk ovl v0 hnlt ih =>
    intro k v h
    rw [mergedEntries_cons_cons, if_neg hnlt, if_pos rfl] at h
    rcases List.mem_cons.mp h with he | ht
    · injection he with h1 h2
      subst h1
      right; simp
    · rcases ih k v ht with hl | hr
      · left; simp [hl]
      · right; simp [hr]
  | case7 sv src nk ovl hnlt ih =>
    intro k v h
    rw [mergedEntries_cons_cons, if_neg hnlt, if_pos rfl] at h
    rcases ih k v h with hl | hr
    · left; simp [hl]
    · right; simp [hr]
  | case8 sk sv src nk ovl hnlt hne v0 ih =>
    intro k v h
    rw [mergedEntries_cons_cons, if_neg hnlt, if_neg hne] at h
    rcases List.mem_cons.mp h with he | ht
    · injection he with h1 h2
      subst h1
      right; simp
    · rcases ih k v ht with hl | hr
      · left; simpa using hl
      · right; simp [hr]
  | case9 sk sv src nk ovl hnlt hne ih =>
    intro k v h
    rw [mergedEntries_cons_cons, if_neg hnlt, if_neg hne] at h
    rcases ih k v h with hl | hr
    · left; simpa using hl
    · right; simp [hr]

/-- The merged entry list is strictly ascending by `keyLt` whenever the
source and the overlay map are. -/
theorem mergedEntries_sorted {V : Type _} :
    ∀ (src : List (Key × V)) (ovl : List (Key × Option V)),
      SortedK src → SortedK ovl → SortedK (mergedEntries src ovl) := by
  intro src ovl
  induction src, ovl using mergedEntries.induct with
  | case1 =>
    intro _ _
    rw [mergedEntries_nil_nil]
    exact List.Pairwise.nil
  | case2 sk sv src ih =>
    intro hs ho
    rw [mergedEntries_cons_nil]
    rw [SortedK, List.pairwise_cons]
    refine ⟨?_, ih (sortedK_tail hs) ho⟩
    intro p hp
    rcases mergedEntries_mem_keys src [] p.1 p.2 (by simpa using hp) with hl | hr
    · exact sortedK_bound hs hl
    · simp at hr
  | case3 nk ovl v0 ih =>
    intro hs ho
    rw [mergedEntries_nil_cons]
    rw [SortedK, List.pairwise_cons]
    refine ⟨?_, ih hs (sortedK_tail ho)⟩
    intro p hp
    rcases mergedEntries_mem_keys [] ovl p.1 p.2 (by simpa using hp) with hl | hr
    · simp at hl
    · exact sortedK_bound ho hr
  | case4 nk ovl ih =>
    intro hs ho
    rw [mergedEntries_nil_cons]
    exact ih hs (sortedK_tail ho)
  | case5 sk sv src nk slot ovl hlt ih =>
    intro hs ho
    rw [mergedEntries_cons_cons, if_pos hlt]
    rw [SortedK, List.pairwise_cons]
    refine ⟨?_, ih (sortedK_tail hs) ho⟩
    intro p hp
    rcases mergedEntries_mem_keys src ((nk, slot) :: ovl) p.1 p.2 (by simpa using hp)
      with hl | hr
    · exact sortedK_bound hs hl
    · rw [List.map_cons] at hr
      rcases List.mem_cons.mp hr with he | ht
      · rw [he]; exact hlt
      · exact keyLt_trans hlt (sortedK_bound ho ht)
  | case6 sv src nk ovl v0 hnlt ih =>
    intro hs ho
    rw [mergedEntries_cons_cons, if_neg hnlt, if_pos rfl]
    rw [SortedK, List.pairwise_cons]
    refine ⟨?_, ih (sortedK_tail hs) (sortedK_tail ho)⟩
    intro p hp
    rcases mergedEntries_mem_keys src ovl p.1 p.2 (by simpa using hp) with hl | hr
    · exact sortedK_bound hs hl
    · exact sortedK_bound ho hr
  | case7 sv src nk ovl hnlt ih =>
    intro hs ho
    rw [mergedEntries_cons_cons, if_neg hnlt, if_pos rfl]
    exact ih (sortedK_tail hs) (sortedK_tail ho)
  | case8 sk sv src nk ovl hnlt hne v0 ih =>
    intro hs ho
    have hlt : keyLt nk sk = true := by
      rcases keyLt_trichotomy sk nk with h | h | h
      · exact absurd h hnlt
      · exact absurd h hne
      · exact h
    rw [mergedEntries_cons_cons, if_neg hnlt, if_neg hne]
    rw [SortedK, List.pairwise_cons]
    refine ⟨?_, ih hs (sortedK_tail ho)⟩
    intro p hp
    rcases mergedEntries_mem_keys ((sk, sv) :: src) ovl p.1 p.2 (by simpa using hp)
      with hl | hr
    · rw [List.map_cons] at hl
      rcases List.mem_cons.mp hl with he | ht
      · rw [he]; exact hlt
      · exact keyLt_trans hlt (sortedK_bound hs ht)
    · exact sortedK_bound ho hr
  | case9 sk sv src nk ovl hnlt hne ih =>
    intro hs ho
    rw [mergedEntries_cons_cons, if_neg hnlt, if_neg hne]
    exact ih hs (sortedK_tail ho)

/-- Membership in the merged entry list: the overlay entry wins when
occupied, a tombstone hides the key entirely, and source entries survive
exactly when the overlay does not mention their key. -/
theorem mergedEntries_mem_iff {V : Type _} :
    ∀ (src : List (Key × V)) (ovl : List (Key × Option V)),
      SortedK src → SortedK ovl → ∀ (k : Key) (v : V),
      ((k, v) ∈ mergedEntries src ovl
        ↔ ((k, some v) ∈ ovl ∨ ((k, v) ∈ src ∧ k ∉ ovl.map Prod.fst))) := by
  intro src ovl
  induction src, ovl using mergedEntries.induct with
  | case1 =>
    intro _ _ k v
    simp [mergedEntries_nil_nil]
  | case2 sk sv src ih =>
    intro hs ho k v
    rw [mergedEntries_cons_nil]
    simp [List.mem_cons, ih (sortedK_tail hs) ho k v]
  | case3 nk ovl v0 ih =>
    intro hs ho k v
    rw [mergedEntries_nil_cons]
    simp [List.mem_cons, ih hs (sortedK_tail ho) k v]
  | case4 nk ovl ih =>
    intro hs ho k v
    rw [mergedEntries_nil_cons]
    simp [List.mem_cons, ih hs (sortedK_tail ho) k v]
  | case5 sk sv src nk slot ovl hlt ih =>
    intro hs ho k v
    have ih' := ih (sortedK_tail hs) ho k v
    rw [mergedEntries_cons_cons, if_pos hlt]
    constructor
    · intro h
      rcases List.mem_cons.mp h with he | ht
      · injection he with h1 h2
        subst h1
        subst h2
        refine Or.inr ⟨List.mem_cons_self .., ?_⟩
        rw [List.map_cons]
        intro hmem
        rcases List.mem_cons.mp hmem with he2 | ht2
        · rw [he2] at hlt
          simp [keyLt_irrefl] at hlt
        · have := keyLt_trans hlt (sortedK_bound ho ht2)
          simp [keyLt_irrefl] at this
      · rcases ih'.mp ht with hl | ⟨hmem, hnm⟩
        · exact Or.inl hl
        · exact Or.inr ⟨List.mem_cons_of_mem _ hmem, hnm⟩
    · intro h
      rcases h with hl | ⟨hmem, hnm⟩
      · exact List.mem_cons_of_mem _ (ih'.mpr (Or.inl hl))
      · rcases List.mem_cons.mp hmem with he | ht
        · exact List.mem_cons.mpr (Or.inl he)
        · exact List.mem_cons_of_mem _ (ih'.mpr (Or.inr ⟨ht, hnm⟩))
  | case6 sv src nk ovl v0 hnlt ih =>
    intro hs ho k v
    have ih' := ih (sortedK_tail hs) (sortedK_tail ho) k v
    rw [mergedEntries_cons_cons, if_neg hnlt, if_pos rfl]
    constructor
    · intro h
      rcases List.mem_cons.mp h with he | ht
      · injection he with h1 h2
        subst h1
        subst h2
        exact Or.inl (List.mem_cons_self ..)
      · rcases ih'.mp ht with hl | ⟨hmem, hnm⟩
        · exact Or.inl (List.mem_cons_of_mem _ hl)
        · refine Or.inr ⟨List.mem_cons_of_mem _ hmem, ?_⟩
          rw [List.map_cons]
          intro hmm
          rcases List.mem_cons.mp hmm with he2 | ht2
          · have hkmem : k ∈ src.map Prod.fst := List.mem_map_of_mem Prod.fst hmem
            have hb := sortedK_bound hs hkmem
            rw [he2] at hb
            simp [keyLt_irrefl] at hb
          · exact hnm ht2
    · intro h
      rcases h with hl | ⟨hmem, hnm⟩
      · rcases List.mem_cons.mp hl with he | ht
        · injection he with h1 h2
          injection h2 with h2
          subst h1
          subst h2
          exact List.mem_cons_self ..
        · exact List.mem_cons_of_mem _ (ih'.mpr (Or.inl ht))
      · have hknk : k ≠ nk := by
          intro he
          exact hnm (by rw [List.map_cons]; exact List.mem_cons.mpr (Or.inl he))
        rcases List.mem_cons.mp hmem with he | ht
        · injection he with h1 h2
          exact absurd h1 hknk
        · refine List.mem_cons_of_mem _ (ih'.mpr (Or.inr ⟨ht, ?_⟩))
          intro hmm
          exact hnm (by rw [List.map_cons]; exact List.mem_cons.mpr (Or.inr hmm))
  | case7 sv src nk ovl hnlt ih =>
    intro hs ho k v
    have ih' := ih (sortedK_tail hs) (sortedK_tail ho) k v
    rw [mergedEntries_cons_cons, if_neg hnlt, if_pos rfl]
    rw [ih']
    constructor
    · intro h
      rcases h with hl | ⟨hmem, hnm⟩
      · exact Or.inl (List.mem_cons_of_mem _ hl)
      · refine Or.inr ⟨List.mem_cons_of_mem _ hmem, ?_⟩
        rw [List.map_cons]
        intro hmm
        rcases List.mem_cons.mp hmm with he2 | ht2
        · have hkmem : k ∈ src.map Prod.fst := List.mem_map_of_mem Prod.fst hmem
          have hb := sortedK_bound hs hkmem
          rw [he2] at hb
          simp [keyLt_irrefl] at hb
        · exact hnm ht2
    · intro h
      rcases h with hl | ⟨hmem, hnm⟩
      · rcases List.mem_cons.mp hl with he | ht
        · injection he with h1 h2
          exact absurd h2 (Option.some_ne_none v)
        · exact Or.inl ht
      · have hknk : k ≠ nk := by
          intro he
          exact hnm (by rw [List.map_cons]; exact List.mem_cons.mpr (Or.inl he))
        rcases List.mem_cons.mp hmem with he | ht
        · injection he with h1 h2
          exact absurd h1 hknk
        · exact Or.inr ⟨ht, fun hmm =>
            hnm (by rw [List.map_cons]; exact List.mem_cons.mpr (Or.inr hmm))⟩
  | case8 sk sv src nk ovl hnlt hne v0 ih =>
    intro hs ho k v
    have ih' := ih hs (sortedK_tail ho) k v
    have hlt : keyLt nk sk = true := by
      rcases keyLt_trichotomy sk nk with h | h | h
      · exact absurd h hnlt
      · exact absurd h hne
      · exact h
    rw [mergedEntries_cons_cons, if_neg hnlt, if_neg hne]
    constructor
    · intro h
      rcases List.mem_cons.mp h with he | ht
      · injection he with h1 h2
        subst h1
        subst h2
        exact Or.inl (List.mem_cons_self ..)
      · rcases ih'.mp ht with hl | ⟨hmem, hnm⟩
        · exact Or.inl (List.mem_cons_of_mem _ hl)
        · refine Or.inr ⟨hmem, ?_⟩
          rw [List.map_cons]
          intro hmm
          rcases List.mem_cons.mp hmm with he2 | ht2
          · have hkk : keyLt nk k = true := by
              rcases List.mem_cons.mp hmem with hee | htt
              · injection hee with h1 h2
                rw [h1]
                exact hlt
              · have hkmem : k ∈ src.map Prod.fst := List.mem_map_of_mem Prod.fst htt
                exact keyLt_trans hlt (sortedK_bound hs hkmem)
            rw [he2] at hkk
            simp [keyLt_irrefl] at hkk
          · exact hnm ht2
    · intro h
      rcases h with hl | ⟨hmem, hnm⟩
      · rcases List.mem_cons.mp hl with he | ht
        · injection he with h1 h2
          injection h2 with h2
          subst h1
          subst h2
          exact List.mem_cons_self ..
        · exact List.mem_cons_of_mem _ (ih'.mpr (Or.inl ht))
      · exact List.mem_cons_of_mem _ (ih'.mpr (Or.inr ⟨hmem, fun hmm =>
          hnm (by rw [List.map_cons]; exact List.mem_cons.mpr (Or.inr hmm))⟩))
  | case9 sk sv src nk ovl hnlt hne ih =>
    intro hs ho k v
    have ih' := ih hs (sortedK_tail ho) k v
    have hlt : keyLt nk sk = true := by
      rcases keyLt_trichotomy sk nk with h | h | h
      · exact absurd h hnlt
      · exact absurd h hne
      · exact h
    rw [mergedEntries_cons_cons, if_neg hnlt, if_neg hne]
    rw [ih']
    constructor
    · intro h
      rcases h with hl | ⟨hmem, hnm⟩
      · exact Or.inl (List.mem_cons_of_mem _ hl)
      · refine Or.inr ⟨hmem, ?_⟩
        rw [List.map_cons]
        intro hmm
        rcases List.mem_cons.mp hmm with he2 | ht2
        · have hkk : keyLt nk k = true := by
            rcases List.mem_cons.mp hmem with hee | htt
            · injection hee with h1 h2
              rw [h1]
              exact hlt
            · have hkmem : k ∈ src.map Prod.fst := List.mem_map_of_mem Prod.fst htt
              exact keyLt_trans hlt (sortedK_bound hs hkmem)
          rw [he2] at hkk
          simp [keyLt_irrefl] at hkk
        · exact hnm ht2
    · intro h
      rcases h with hl | ⟨hmem, hnm⟩
      · rcases List.mem_cons.mp hl with he | ht
        · injection he with h1 h2
          exact absurd h2 (Option.some_ne_none v)
        · exact Or.inl ht
      · exact Or.inr ⟨hmem, fun hmm =>
          hnm (by rw [List.map_cons]; exact List.mem_cons.mpr (Or.inr hmm))⟩

instance {A : Type _} (xs : List (Key × A)) : Decidable (SortedK xs) :=
  inferInstanceAs (Decidable (xs.Pairwise (fun (p q : Key × A) => keyLt p.1 q.1 = true)))

/-- C5: over any sorted source and overlay, the merged iterator's output
is strictly ascending by key (hence has no duplicate keys), and a key
present in both streams is emitted with the overlay's value when the
overlay slot is occupied and skipped entirely when it is a tombstone:
membership in the output is exactly an occupied overlay entry, or a source
entry whose key the overlay does not mention. -/
theorem heapDict_iterator_merge {V : Type _} (src : List (Key × V))
    (ovl : List (Key × Option V)) (hs : SortedK src) (ho : SortedK ovl) :
    SortedK (mergedEntries src ovl)
    ∧ ((mergedEntries src ovl).map Prod.fst).Nodup
    ∧ (∀ (k : Key) (v : V),
        ((k, v) ∈ mergedEntries src ovl
          ↔ ((k, some v) ∈ ovl ∨ ((k, v) ∈ src ∧ k ∉ ovl.map Prod.fst)))) := by
  refine ⟨mergedEntries_sorted src ovl hs ho, ?_, mergedEntries_mem_iff src ovl hs ho⟩
  show ((mergedEntries src ovl).map Prod.fst).Pairwise (· ≠ ·)
  rw [List.pairwise_map]
  exact (mergedEntries_sorted src ovl hs ho).imp (fun h => keyLt_ne h)

/-- Witness for `heapDict_iterator_merge`: source `{a, b}` with an
override at `a`, a tombstone at `b` and a new key `c`. -/
theorem heapDict_iterator_merge_witness :
    SortedK (mergedEntries [([97], 1), ([98], 2)]
      [([97], some 10), ([98], (none : Option Nat)), ([99], some 3)])
    ∧ ((mergedEntries [([97], 1), ([98], 2)]
        [([97], some 10), ([98], (none : Option Nat)), ([99], some 3)]).map Prod.fst).Nodup
    ∧ (∀ (k : Key) (v : Nat),
        ((k, v) ∈ mergedEntries [([97], 1), ([98], 2)]
            [([97], some 10), ([98], (none : Option Nat)), ([99], some 3)]
          ↔ ((k, some v) ∈ [([97], some 10), ([98], (none : Option Nat)), ([99], some 3)]
             ∨ ((k, v) ∈ [([97], 1), ([98], 2)]
                ∧ k ∉ [([97], some 10), ([98], (none : Option Nat)),
                    ([99], some 3)].map Prod.fst)))) :=
  heapDict_iterator_merge [([97], 1), ([98], 2)]
    [([97], some 10), ([98], (none : Option Nat)), ([99], some 3)]
    (by decide) (by decide)
